import Mathlib

/-!
# Angel Dashboard — verification of the core pipeline

Shallow embedding of the core logic of `streamlit_app.py`:
the table normalizer (client column detection, row parsing, date sort)
and the metrics engine (cumulative PNL, high-water mark, drawdown,
win/loss statistics, streaks, month-wise aggregation).

Daily PNL values (pandas floats in the source) are modelled as exact
integers: every property verified here (sums, running maxima, order
comparisons, streak counting, grouping) is ring/order-generic and all
of the spec's scenarios use integer values, so `Int` represents them
faithfully while keeping every definition kernel-executable.  The four
division-derived summary fields (the two ratios, the two averages, and
the risk-reward/expectancy combinations of them) are `Rat`, computed
from the integer sums by exact division as the source computes them
from float sums.

Calendar dates are `(year, month, day)` triples of naturals ordered
lexicographically, matching datetime ordering.  Spreadsheet cells are a
tagged value type (text / number / date / blank), abstracting pandas'
`to_datetime` / `to_numeric` coercions: a cell parses as a date (resp.
number) exactly when it carries one, and unparseable cells yield the
NaN/NaT that `dropna` removes.
-/

namespace AngelDash

/-- A calendar date, `pd.Timestamp` truncated to day grain. -/
structure Date where
  y : Nat
  m : Nat
  d : Nat
deriving DecidableEq, Repr

/-- Chronological order on dates: lexicographic on (year, month, day). -/
def dateLe (a b : Date) : Prop :=
  a.y < b.y ∨ (a.y = b.y ∧ (a.m < b.m ∨ (a.m = b.m ∧ a.d ≤ b.d)))

instance : DecidableRel dateLe := fun a b => by
  unfold dateLe; exact inferInstance

/-- The `Month` period key of a date (`data['Date'].dt.to_period('M')`):
calendar-month truncation, i.e. the (year, month) pair. -/
def monthKey (dt : Date) : Nat × Nat := (dt.y, dt.m)

/-- Order on month period keys: lexicographic on (year, month). -/
def mLe (a b : Nat × Nat) : Prop :=
  a.1 < b.1 ∨ (a.1 = b.1 ∧ a.2 ≤ b.2)

instance : DecidableRel mLe := fun a b => by
  unfold mLe; exact inferInstance

/-- A raw spreadsheet cell. -/
inductive Cell where
  | text (s : String)
  | num (q : Int)
  | date (dt : Date)
  | blank
deriving DecidableEq, Repr

/-- `pd.to_datetime(cell, errors='coerce')`: a date cell parses, anything
else coerces to NaT (and is later dropped by `dropna`). -/
def parseDate : Cell → Option Date
  | Cell.date dt => some dt
  | _ => none

/-- `pd.to_numeric(cell, errors='coerce')`: a numeric cell parses, anything
else coerces to NaN (and is later dropped by `dropna`). -/
def parseNum : Cell → Option Int
  | Cell.num q => some q
  | _ => none

/-- The condition tested inside the detection loop:
`val == selected_client and df_raw.iloc[1, i] == "Daily PNL"`,
on the pair (row0 cell, row1 cell) at one column index. -/
def colMatchB (sel : String) (pr : Cell × Cell) : Bool :=
  decide (pr.1 = Cell.text sel) && decide (pr.2 = Cell.text "Daily PNL")

/-- `client_col_index`: scan `enumerate(client_row)` left-to-right and
return the first index whose row-0 cell equals the selected client and
whose row-1 cell equals "Daily PNL"; `None` when no column matches. -/
def clientColIndex (row0 row1 : List Cell) (sel : String) : Option Nat :=
  List.findIdx? (colMatchB sel) (row0.zip row1)

/-- Order on parsed (date, pnl) rows by date: the `sort_values('Date')` key. -/
def rowLe (p q : Date × Int) : Prop := dateLe p.1 q.1

instance : DecidableRel rowLe := fun p q =>
  inferInstanceAs (Decidable (dateLe p.1 q.1))

/-- The normalizer: detect the client's "Daily PNL" column; on failure
report `none` (the `st.warning` branch — no metrics are computed).
Otherwise take data rows (index ≥ 2), parse column 0 as a date and
column `c` as a number, drop rows where either fails (`dropna`), and
sort ascending by date.  (The source sorts via pandas
`sort_values('Date')` with its default `kind='quicksort'`; the ordering
of rows with equal dates is therefore not specified by the source — the
embedding uses an insertion sort, and no theorem below depends on the
relative order of equal-date rows.) -/
def normalize (table : List (List Cell)) (sel : String) :
    Option (List (Date × Int)) :=
  match clientColIndex (table.getD 0 []) (table.getD 1 []) sel with
  | none => none
  | some c =>
    let rows := table.drop 2
    let parsed := rows.filterMap fun row =>
      match parseDate (row.getD 0 Cell.blank), parseNum (row.getD c Cell.blank) with
      | some dt, some v => some (dt, v)
      | _, _ => none
    some (List.insertionSort rowLe parsed)

/-- `pnl.cumsum()` with running accumulator `acc`. -/
def cumsumFrom (acc : Int) : List Int → List Int
  | [] => []
  | x :: xs => (acc + x) :: cumsumFrom (acc + x) xs

/-- `cum_pnl = pnl.cumsum()`: running sums. -/
def cumsum (l : List Int) : List Int := cumsumFrom 0 l

/-- `cummax` continuation with current maximum `m`. -/
def cummaxAux (m : Int) : List Int → List Int
  | [] => []
  | x :: xs => max m x :: cummaxAux (max m x) xs

/-- `cum_pnl.cummax()`: running maxima. -/
def cummax : List Int → List Int
  | [] => []
  | x :: xs => x :: cummaxAux x xs

/-- `high_water_mark = cum_pnl.cummax()`. -/
def highWaterMark (pnl : List Int) : List Int := cummax (cumsum pnl)

/-- `drawdown = cum_pnl - high_water_mark` (elementwise). -/
def drawdownOf (pnl : List Int) : List Int :=
  List.zipWith (fun a b => a - b) (cumsum pnl) (highWaterMark pnl)

/-- State of the streak loop: the two counters and their running maxima. -/
structure StreakState where
  winStreak : Nat
  lossStreak : Nat
  maxWinStreak : Nat
  maxLossStreak : Nat
deriving DecidableEq, Repr

/-- One iteration of the streak loop.  `np.sign(v) > 0` iff `0 < v` and
`np.sign(v) < 0` iff `v < 0`, so the branch tests use `v` directly:
positive increments the win counter and zeroes the loss counter,
negative mirrors, zero zeroes both; then both running maxima are
updated. -/
def streakStep (s : StreakState) (v : Int) : StreakState :=
  let w := if 0 < v then s.winStreak + 1 else 0
  let lo := if v < 0 then s.lossStreak + 1 else 0
  { winStreak := w
    lossStreak := lo
    maxWinStreak := max s.maxWinStreak w
    maxLossStreak := max s.maxLossStreak lo }

/-- The whole streak loop, from all-zero initial state. -/
def streakFold (pnl : List Int) : StreakState :=
  pnl.foldl streakStep ⟨0, 0, 0, 0⟩

/-- `metrics["Max Winning Streak (Days)"]`. -/
def maxWinStreak (pnl : List Int) : Nat := (streakFold pnl).maxWinStreak

/-- `metrics["Max Losing Streak (Days)"]`. -/
def maxLossStreak (pnl : List Int) : Nat := (streakFold pnl).maxLossStreak

/-- The fixed 17-field summary record built by the `metrics` dict. -/
structure SummaryMetrics where
  totalPNL : Int
  winDays : Nat
  lossDays : Nat
  winRatio : Rat
  lossRatio : Rat
  avgProfitWin : Rat
  avgLossLoss : Rat
  totalProfitWin : Int
  totalLossLoss : Int
  maxProfit : Int
  maxLoss : Int
  maxDrawdown : Int
  currentDrawdown : Int
  maxWinStreakDays : Nat
  maxLossStreakDays : Nat
  riskReward : Rat
  expectancy : Rat
deriving DecidableEq, Repr

/-- The `metrics` dict of the source for a series whose drawdown sequence
is the non-empty list `d0 :: drest` (so that `drawdown.min()` and
`drawdown.iloc[-1]` are defined).  Every field follows the source line
by line; pandas `mean` is sum / length. -/
def metricsNE (pnl : List Int) (d0 : Int) (drest : List Int) : SummaryMetrics :=
  let wins := pnl.filter fun v => decide (0 < v)
  let losses := pnl.filter fun v => decide (v < 0)
  let n := pnl.length
  let winRatio : Rat := if n ≠ 0 then (wins.length : Rat) / (n : Rat) * 100 else 0
  let lossRatio : Rat := if n ≠ 0 then (losses.length : Rat) / (n : Rat) * 100 else 0
  let avgW : Rat := if ¬ wins.isEmpty then (wins.sum : Rat) / (wins.length : Rat) else 0
  let avgL : Rat := if ¬ losses.isEmpty then (losses.sum : Rat) / (losses.length : Rat) else 0
  { totalPNL := pnl.sum
    winDays := wins.length
    lossDays := losses.length
    winRatio := winRatio
    lossRatio := lossRatio
    avgProfitWin := avgW
    avgLossLoss := avgL
    totalProfitWin := wins.sum
    totalLossLoss := losses.sum
    maxProfit := match wins with | [] => 0 | w :: ws => ws.foldl max w
    maxLoss := match losses with | [] => 0 | x :: xs => xs.foldl min x
    maxDrawdown := drest.foldl min d0
    currentDrawdown := (d0 :: drest).getLast (List.cons_ne_nil d0 drest)
    maxWinStreakDays := maxWinStreak pnl
    maxLossStreakDays := maxLossStreak pnl
    riskReward := |if avgL ≠ 0 then avgW / avgL else 0|
    expectancy := winRatio / 100 * avgW + lossRatio / 100 * avgL }

/-- The metrics computation.  On the empty series the drawdown sequence is
empty and `drawdown.iloc[-1]` raises `IndexError` (while
`drawdown.min()` is NaN): the computation fails, modelled as `none`. -/
def metrics? (pnl : List Int) : Option SummaryMetrics :=
  match drawdownOf pnl with
  | [] => none
  | d0 :: drest => some (metricsNE pnl d0 drest)

/-- The month period key of every row, in series order. -/
def monthVals (series : List (Date × Int)) : List (Nat × Nat) :=
  series.map fun p => monthKey p.1

/-- Deduplication keeping the first occurrence of each key, in order of
first occurrence. -/
def firstOcc : List (Nat × Nat) → List (Nat × Nat)
  | [] => []
  | k :: ks => k :: (firstOcc ks).filter fun j => decide (j ≠ k)

/-- Total PNL of the rows falling in month `k`. -/
def monthSum (series : List (Date × Int)) (k : Nat × Nat) : Int :=
  ((series.filter fun p => decide (monthKey p.1 = k)).map Prod.snd).sum

/-- `data.groupby('Month')['Daily PNL'].sum()`: pandas groups by the
distinct month keys sorted ascending and sums the values of each
group. -/
def monthwise (series : List (Date × Int)) : List ((Nat × Nat) × Int) :=
  (List.insertionSort mLe (firstOcc (monthVals series))).map
    fun k => (k, monthSum series k)

/-- Modelled from the spec: the MonthlySeries with groups listed in
chronological order of first occurrence in the (date-sorted) series,
the reference point for the grouping-order claim. -/
def monthwiseFirstOcc (series : List (Date × Int)) : List ((Nat × Nat) × Int) :=
  (firstOcc (monthVals series)).map fun k => (k, monthSum series k)

/-- Run-length scan: emits the lengths of the maximal blocks of
consecutive elements satisfying `p`, left to right; `cur` is the length
of the block currently open. -/
def runsAux (p : Int → Bool) : Nat → List Int → List Nat
  | cur, [] => if cur = 0 then [] else [cur]
  | cur, v :: xs =>
    if p v then runsAux p (cur + 1) xs
    else if cur = 0 then runsAux p 0 xs
    else cur :: runsAux p 0 xs

/-- The lengths of the maximal blocks of consecutive elements
satisfying `p`, left to right. -/
def runs (p : Int → Bool) (l : List Int) : List Nat :=
  runsAux p 0 l

/-- The length of the longest run of consecutive elements satisfying `p`. -/
def longestRun (p : Int → Bool) (l : List Int) : Nat :=
  (runs p l).foldr max 0

/-- One step of a single-counter streak scan: `p`-days extend the current
run, others reset it; the second component tracks the running maximum. -/
def streakStep1 (p : Int → Bool) (s : Nat × Nat) (v : Int) : Nat × Nat :=
  let c := if p v then s.1 + 1 else 0
  (c, max s.2 c)

/-- Maximal streak counter value reached when scanning `l` with current
run length `c`. -/
def streakAux (p : Int → Bool) (c : Nat) : List Int → Nat
  | [] => 0
  | v :: xs => if p v then max (c + 1) (streakAux p (c + 1) xs) else streakAux p 0 xs

/-- Strict positivity, the win-day test. -/
def posP (v : Int) : Bool := decide (0 < v)

/-- Strict negativity, the loss-day test. -/
def negP (v : Int) : Bool := decide (v < 0)

/-- The index `i` matches in the detection loop: the zipped header rows
hold, at position `i`, the selected client over "Daily PNL". -/
def colMatches (row0 row1 : List Cell) (sel : String) (i : Nat) : Prop :=
  ∃ pr, (row0.zip row1)[i]? = some pr ∧ colMatchB sel pr = true

/-! ## Helper lemmas -/

theorem length_cumsumFrom (l : List Int) :
    ∀ acc, (cumsumFrom acc l).length = l.length := by
  induction l with
  | nil => intro acc; rfl
  | cons x xs ih => intro acc; simp [cumsumFrom, ih]

theorem length_cumsum (l : List Int) : (cumsum l).length = l.length :=
  length_cumsumFrom l 0

theorem length_cummaxAux (l : List Int) :
    ∀ m, (cummaxAux m l).length = l.length := by
  induction l with
  | nil => intro m; rfl
  | cons x xs ih => intro m; simp [cummaxAux, ih]

theorem length_cummax (l : List Int) : (cummax l).length = l.length := by
  cases l with
  | nil => rfl
  | cons x xs => simp [cummax, length_cummaxAux]

theorem length_drawdownOf (pnl : List Int) :
    (drawdownOf pnl).length = pnl.length := by
  simp [drawdownOf, highWaterMark, length_cummax, length_cumsum]

theorem mem_zip_cummaxAux_nonpos (xs : List Int) :
    ∀ (m : Int) (y : Int),
      y ∈ List.zipWith (fun a b => a - b) xs (cummaxAux m xs) → y ≤ 0 := by
  induction xs with
  | nil => intro m y h; simp at h
  | cons x xs ih =>
    intro m y h
    simp only [cummaxAux, List.zipWith_cons_cons, List.mem_cons] at h
    rcases h with h | h
    · rw [h]; exact sub_nonpos.mpr (le_max_right m x)
    · exact ih (max m x) y h

theorem mem_drawdownOf_nonpos (pnl : List Int) :
    ∀ y ∈ drawdownOf pnl, y ≤ 0 := by
  unfold drawdownOf highWaterMark
  cases hc : cumsum pnl with
  | nil => intro y h; simp at h
  | cons c cs =>
    intro y h
    simp only [cummax, List.zipWith_cons_cons, List.mem_cons] at h
    rcases h with h | h
    · rw [h]; simp
    · exact mem_zip_cummaxAux_nonpos cs c y h

theorem metrics?_inv {pnl : List Int} {m : SummaryMetrics}
    (h : metrics? pnl = some m) :
    ∃ d0 drest, drawdownOf pnl = d0 :: drest ∧ m = metricsNE pnl d0 drest := by
  unfold metrics? at h
  cases hdd : drawdownOf pnl with
  | nil => rw [hdd] at h; exact absurd h (by simp)
  | cons d0 drest =>
    rw [hdd] at h
    exact ⟨d0, drest, rfl, (Option.some.injEq _ _ ▸ h).symm⟩

theorem foldl_min_le (l : List Int) :
    ∀ (a x : Int), x ∈ a :: l → l.foldl min a ≤ x := by
  induction l with
  | nil =>
    intro a x hx
    simp only [List.mem_singleton] at hx
    simp [hx]
  | cons b bs ih =>
    intro a x hx
    have hstep : (b :: bs).foldl min a = bs.foldl min (min a b) := by simp
    rw [hstep]
    rcases List.mem_cons.mp hx with h | h
    · subst h
      exact le_trans (ih (min x b) (min x b) (List.mem_cons_self _ _)) (min_le_left x b)
    · rcases List.mem_cons.mp h with h2 | h2
      · subst h2
        exact le_trans (ih (min a x) (min a x) (List.mem_cons_self _ _)) (min_le_right a x)
      · exact ih (min a b) x (List.mem_cons_of_mem _ h2)

/-! ## Claims -/

/-- C1 (code_bug demonstration): on the empty series the metrics
computation fails instead of returning the documented all-zero record:
the drawdown sequence is empty, `drawdown.iloc[-1]` raises `IndexError`
(and `drawdown.min()` is NaN, not 0). -/
theorem metrics_empty_fails : metrics? ([] : List Int) = none := rfl

/-- C2: for the series [+10, -4, +6, -4, +2], cum_pnl = [10,6,12,8,10],
high_water_mark = [10,10,12,12,12], drawdown = [0,-4,0,-4,-2], and the
metrics record has Total PNL = 10, Win Days = 3, Loss Days = 2,
Max Drawdown = -4, Current Drawdown = -2. -/
theorem basic_scenario :
    cumsum [10, -4, 6, -4, 2] = [10, 6, 12, 8, 10] ∧
    highWaterMark [10, -4, 6, -4, 2] = [10, 10, 12, 12, 12] ∧
    drawdownOf [10, -4, 6, -4, 2] = [0, -4, 0, -4, -2] ∧
    (metrics? [10, -4, 6, -4, 2]).map
      (fun m => (m.totalPNL, m.winDays, m.lossDays, m.maxDrawdown, m.currentDrawdown))
      = some (10, 3, 2, -4, -2) := by
  refine ⟨by decide, by decide, by decide, by decide⟩

/-- C6: every entry of the drawdown sequence is ≤ 0: the cumulative sum
never exceeds its running maximum. -/
theorem drawdown_nonpos (pnl : List Int) (i : Nat)
    (h : i < (drawdownOf pnl).length) :
    (drawdownOf pnl).get ⟨i, h⟩ ≤ 0 :=
  mem_drawdownOf_nonpos pnl _ (List.get_mem _ _ _)

/-- Witness for C6 at the concrete series [3, -5], index 1. -/
theorem drawdown_nonpos_witness :
    (drawdownOf [3, -5]).get ⟨1, by decide⟩ ≤ 0 :=
  drawdown_nonpos [3, -5] 1 (by decide)

theorem cumsumFrom_getLast? (l : List Int) :
    ∀ acc, l ≠ [] → (cumsumFrom acc l).getLast? = some (acc + l.sum) := by
  induction l with
  | nil => intro acc h; exact absurd rfl h
  | cons x xs ih =>
    intro acc _
    cases xs with
    | nil => simp [cumsumFrom]
    | cons y ys =>
      have h2 := ih (acc + x) (by simp)
      rw [cumsumFrom] at h2 ⊢
      rw [cumsumFrom, List.getLast?_cons_cons, h2]
      congr 1
      simp only [List.sum_cons]
      ring

theorem metrics?_eq_some (pnl : List Int) (hp : pnl ≠ []) :
    ∃ d0 drest, drawdownOf pnl = d0 :: drest ∧
      metrics? pnl = some (metricsNE pnl d0 drest) := by
  cases hdd : drawdownOf pnl with
  | nil =>
    have hl := length_drawdownOf pnl
    rw [hdd] at hl
    exact absurd (List.length_eq_zero.mp hl.symm) hp
  | cons d0 drest => exact ⟨d0, drest, rfl, by simp [metrics?, hdd]⟩

/-- C8: for every non-empty series the last entry of the running
cumulative sum is the total, which is the Total PNL field of the
(defined) metrics record. -/
theorem cumsum_last_eq_total (pnl : List Int) (h : pnl ≠ []) :
    (cumsum pnl).getLast? = some pnl.sum ∧
    ∃ m, metrics? pnl = some m ∧ m.totalPNL = pnl.sum := by
  constructor
  · simpa [cumsum] using cumsumFrom_getLast? pnl 0 h
  · obtain ⟨d0, drest, _, hm⟩ := metrics?_eq_some pnl h
    exact ⟨metricsNE pnl d0 drest, hm, rfl⟩

/-- Witness for C8 at the concrete series [4, -1, 3]. -/
theorem cumsum_last_eq_total_witness :
    (cumsum [4, -1, 3]).getLast? = some ([4, -1, 3] : List Int).sum ∧
    ∃ m, metrics? [4, -1, 3] = some m ∧ m.totalPNL = ([4, -1, 3] : List Int).sum :=
  cumsum_last_eq_total [4, -1, 3] (by decide)

/-- C10: whenever the metrics record is defined (non-empty series),
Max Drawdown ≤ Current Drawdown and both are ≤ 0: the minimum of the
drawdown sequence bounds its last entry, and all entries are ≤ 0. -/
theorem maxdd_le_currdd (pnl : List Int) (m : SummaryMetrics)
    (h : metrics? pnl = some m) :
    m.maxDrawdown ≤ m.currentDrawdown ∧ m.currentDrawdown ≤ 0 ∧
    m.maxDrawdown ≤ 0 := by
  obtain ⟨d0, drest, hdd, hm⟩ := metrics?_inv h
  subst hm
  have hnp : ∀ y ∈ d0 :: drest, y ≤ 0 := fun y hy =>
    mem_drawdownOf_nonpos pnl y (hdd ▸ hy)
  have hmd : (metricsNE pnl d0 drest).maxDrawdown = drest.foldl min d0 := rfl
  have hcd : (metricsNE pnl d0 drest).currentDrawdown
      = (d0 :: drest).getLast (List.cons_ne_nil d0 drest) := rfl
  have hlast : (d0 :: drest).getLast (List.cons_ne_nil d0 drest) ∈ d0 :: drest :=
    List.getLast_mem _
  refine ⟨?_, ?_, ?_⟩
  · rw [hmd, hcd]; exact foldl_min_le drest d0 _ hlast
  · rw [hcd]; exact hnp _ hlast
  · rw [hmd]
    exact le_trans (foldl_min_le drest d0 d0 (List.mem_cons_self _ _))
      (hnp d0 (List.mem_cons_self _ _))

/-- Witness for C10 at the concrete series [2, -3]. -/
theorem maxdd_le_currdd_witness :
    (metricsNE [2, -3] 0 [-3]).maxDrawdown ≤ (metricsNE [2, -3] 0 [-3]).currentDrawdown ∧
    (metricsNE [2, -3] 0 [-3]).currentDrawdown ≤ 0 ∧
    (metricsNE [2, -3] 0 [-3]).maxDrawdown ≤ 0 :=
  maxdd_le_currdd [2, -3] (metricsNE [2, -3] 0 [-3]) rfl

/-- C3: the detection loop returns the first (leftmost) column index whose
header pair matches the selected client over "Daily PNL"; when no column
matches it returns `None` and the normalizer stops (no series, hence no
metrics); on row0 = [Date, ClientA, ClientA], row1 = ["", Daily PNL,
Other] the match for "ClientA" is index 1, not 2. -/
theorem clientColIndex_spec :
    (∀ row0 row1 sel i, clientColIndex row0 row1 sel = some i →
        colMatches row0 row1 sel i ∧ ∀ j, j < i → ¬ colMatches row0 row1 sel j) ∧
    (∀ row0 row1 sel, clientColIndex row0 row1 sel = none →
        ∀ i, ¬ colMatches row0 row1 sel i) ∧
    (∀ table sel,
        clientColIndex (table.getD 0 []) (table.getD 1 []) sel = none →
        normalize table sel = none) ∧
    clientColIndex [Cell.text "Date", Cell.text "ClientA", Cell.text "ClientA"]
        [Cell.text "", Cell.text "Daily PNL", Cell.text "Other"] "ClientA"
      = some 1 := by
  refine ⟨?_, ?_, ?_, by decide⟩
  · intro row0 row1 sel i h
    unfold clientColIndex at h
    rw [List.findIdx?_eq_some_iff_findIdx_eq] at h
    obtain ⟨hlt, hidx⟩ := h
    obtain ⟨hp, hprev⟩ := (List.findIdx_eq hlt).mp hidx
    constructor
    · exact ⟨(row0.zip row1).get ⟨i, hlt⟩, List.getElem?_eq_getElem hlt, hp⟩
    · intro j hj hcm
      obtain ⟨pr, hpr, hprm⟩ := hcm
      have hjlt : j < (row0.zip row1).length := Nat.lt_trans hj hlt
      rw [List.getElem?_eq_getElem hjlt] at hpr
      have heq := Option.some.inj hpr
      have hfalse := hprev j hj
      rw [heq] at hfalse
      simp [hprm] at hfalse
  · intro row0 row1 sel h i hcm
    unfold clientColIndex at h
    rw [List.findIdx?_eq_none_iff] at h
    obtain ⟨pr, hpr, hprm⟩ := hcm
    obtain ⟨hlt, heq⟩ := List.getElem?_eq_some_iff.mp hpr
    have hmem := h _ (heq ▸ List.getElem_mem hlt)
    simp [hprm] at hmem
  · intro table sel h
    unfold normalize
    rw [h]

/-- Witness for C3: the characterization applied at the concrete header
rows shows index 1 matches and index 0 does not. -/
theorem clientColIndex_spec_witness :
    colMatches [Cell.text "Date", Cell.text "ClientA", Cell.text "ClientA"]
        [Cell.text "", Cell.text "Daily PNL", Cell.text "Other"] "ClientA" 1 ∧
    ¬ colMatches [Cell.text "Date", Cell.text "ClientA", Cell.text "ClientA"]
        [Cell.text "", Cell.text "Daily PNL", Cell.text "Other"] "ClientA" 0 :=
  ⟨(clientColIndex_spec.1 _ _ "ClientA" 1 (by decide)).1,
   (clientColIndex_spec.1 _ _ "ClientA" 1 (by decide)).2 0 (by decide)⟩

theorem streakFold_decompose (l : List Int) :
    ∀ s : StreakState, l.foldl streakStep s =
      ⟨(l.foldl (streakStep1 posP) (s.winStreak, s.maxWinStreak)).1,
       (l.foldl (streakStep1 negP) (s.lossStreak, s.maxLossStreak)).1,
       (l.foldl (streakStep1 posP) (s.winStreak, s.maxWinStreak)).2,
       (l.foldl (streakStep1 negP) (s.lossStreak, s.maxLossStreak)).2⟩ := by
  induction l with
  | nil => intro s; rfl
  | cons v xs ih =>
    intro s
    simp only [List.foldl_cons]
    rw [ih (streakStep s v)]
    have hw : ((streakStep s v).winStreak, (streakStep s v).maxWinStreak)
        = streakStep1 posP (s.winStreak, s.maxWinStreak) v := by
      unfold streakStep streakStep1 posP
      by_cases h : 0 < v <;> simp [h]
    have hl : ((streakStep s v).lossStreak, (streakStep s v).maxLossStreak)
        = streakStep1 negP (s.lossStreak, s.maxLossStreak) v := by
      unfold streakStep streakStep1 negP
      by_cases h : v < 0 <;> simp [h]
    rw [hw, hl]

theorem foldl_streakStep1_snd (p : Int → Bool) (l : List Int) :
    ∀ c b, c ≤ b → (l.foldl (streakStep1 p) (c, b)).2 = max b (streakAux p c l) := by
  induction l with
  | nil => intro c b _; simp [streakAux]
  | cons v xs ih =>
    intro c b hcb
    rw [List.foldl_cons]
    cases hp : p v with
    | true =>
      have hstep : streakStep1 p (c, b) v = (c + 1, max b (c + 1)) := by
        simp [streakStep1, hp]
      rw [hstep, ih (c + 1) (max b (c + 1)) (le_max_right _ _)]
      simp only [streakAux, hp, if_true]
      rw [max_assoc]
    | false =>
      have hstep : streakStep1 p (c, b) v = (0, b) := by
        simp [streakStep1, hp]
      rw [hstep, ih 0 b (Nat.zero_le b)]
      simp [streakAux, hp]

theorem foldr_max_runsAux (p : Int → Bool) (l : List Int) :
    ∀ c, (runsAux p c l).foldr max 0 = max c (streakAux p c l) := by
  induction l with
  | nil =>
    intro c
    by_cases hc : c = 0
    · simp [runsAux, streakAux, hc]
    · simp [runsAux, streakAux, hc]
  | cons v xs ih =>
    intro c
    cases hp : p v with
    | true =>
      simp only [runsAux, streakAux, hp, if_true]
      rw [ih (c + 1), ← max_assoc, max_eq_right (Nat.le_succ c)]
    | false =>
      by_cases hc : c = 0
      · subst hc
        simp only [runsAux, streakAux, hp, Bool.false_eq_true, if_false, if_pos rfl]
        exact ih 0
      · simp only [runsAux, streakAux, hp, Bool.false_eq_true, if_false, if_neg hc,
          List.foldr_cons]
        rw [ih 0, Nat.zero_max]

/-- C4: the streak loop (positive increments the win counter and resets
the loss counter, negative mirrors, zero resets both, maxima tracked
per iteration — the recurrence implemented by `streakStep`) reports
exactly the lengths of the longest runs of consecutive strictly
positive / strictly negative days; on [5, 3, 0, -2, -4] both reported
streaks are 2 (the zero breaks both runs). -/
theorem streak_fields_eq_longest_run :
    (∀ l, maxWinStreak l = longestRun posP l) ∧
    (∀ l, maxLossStreak l = longestRun negP l) ∧
    maxWinStreak [5, 3, 0, -2, -4] = 2 ∧
    maxLossStreak [5, 3, 0, -2, -4] = 2 := by
  have hgen : ∀ (p : Int → Bool) (l : List Int),
      (l.foldl (streakStep1 p) (0, 0)).2 = longestRun p l := by
    intro p l
    rw [foldl_streakStep1_snd p l 0 0 (le_refl 0)]
    unfold longestRun runs
    rw [foldr_max_runsAux p l 0]
  refine ⟨?_, ?_, by decide, by decide⟩
  · intro l
    unfold maxWinStreak streakFold
    rw [streakFold_decompose l ⟨0, 0, 0, 0⟩]
    exact hgen posP l
  · intro l
    unfold maxLossStreak streakFold
    rw [streakFold_decompose l ⟨0, 0, 0, 0⟩]
    exact hgen negP l

theorem monthKey_mono {a b : Date} (h : dateLe a b) :
    mLe (monthKey a) (monthKey b) := by
  have h2 : a.y < b.y ∨ (a.y = b.y ∧ (a.m < b.m ∨ (a.m = b.m ∧ a.d ≤ b.d))) := h
  show a.y < b.y ∨ (a.y = b.y ∧ a.m ≤ b.m)
  omega

theorem firstOcc_sublist (l : List (Nat × Nat)) : List.Sublist (firstOcc l) l := by
  induction l with
  | nil => simp [firstOcc]
  | cons k ks ih =>
    simp only [firstOcc]
    exact List.Sublist.cons₂ _ ((List.filter_sublist _).trans ih)

theorem firstOcc_nodup (l : List (Nat × Nat)) : (firstOcc l).Nodup := by
  induction l with
  | nil => simp [firstOcc]
  | cons k ks ih =>
    simp only [firstOcc]
    rw [List.nodup_cons]
    constructor
    · intro hk
      have hdec := (List.mem_filter.mp hk).2
      simp at hdec
    · exact ih.filter _

theorem mem_firstOcc {a : Nat × Nat} (l : List (Nat × Nat)) :
    a ∈ firstOcc l ↔ a ∈ l := by
  induction l with
  | nil => simp [firstOcc]
  | cons k ks ih =>
    simp only [firstOcc, List.mem_cons, List.mem_filter, ih, decide_eq_true_eq]
    by_cases hak : a = k
    · simp [hak]
    · simp [hak]

/-- C7: on a date-sorted series (which the normalizer always produces),
pandas' sorted-key grouping coincides with grouping in chronological
order of first occurrence: month keys are monotone along the series, so
the distinct keys are already sorted. -/
theorem monthwise_chronological (series : List (Date × Int))
    (hs : List.Sorted dateLe (series.map Prod.fst)) :
    monthwise series = monthwiseFirstOcc series := by
  unfold monthwise monthwiseFirstOcc
  congr 1
  apply List.Sorted.insertionSort_eq
  have h0 : List.Pairwise dateLe (series.map Prod.fst) := hs
  have h2 := h0.map monthKey (fun a b hab => monthKey_mono hab)
  rw [List.map_map] at h2
  exact List.Pairwise.sublist (firstOcc_sublist _) h2

/-- Witness for C7: a series with days 2024-01-05, 2024-01-20, 2024-02-03
and values 1, 2, 3 is date-sorted, the two groupings agree on it, and
they give [(2024-01, 3), (2024-02, 3)] in that order. -/
theorem monthwise_chronological_witness :
    List.Sorted dateLe
      (([((⟨2024, 1, 5⟩ : Date), (1 : Int)), (⟨2024, 1, 20⟩, 2),
         (⟨2024, 2, 3⟩, 3)]).map Prod.fst) ∧
    monthwise [(⟨2024, 1, 5⟩, 1), (⟨2024, 1, 20⟩, 2), (⟨2024, 2, 3⟩, 3)]
      = monthwiseFirstOcc
          [(⟨2024, 1, 5⟩, 1), (⟨2024, 1, 20⟩, 2), (⟨2024, 2, 3⟩, 3)] ∧
    monthwiseFirstOcc [(⟨2024, 1, 5⟩, 1), (⟨2024, 1, 20⟩, 2), (⟨2024, 2, 3⟩, 3)]
      = [((2024, 1), 3), ((2024, 2), 3)] :=
  ⟨by decide, monthwise_chronological _ (by decide), by decide⟩

theorem sum_map_add_pair (f g : Nat × Nat → Int) (ks : List (Nat × Nat)) :
    (ks.map fun k => f k + g k).sum = (ks.map f).sum + (ks.map g).sum := by
  induction ks with
  | nil => simp
  | cons k ks ih =>
    simp only [List.map_cons, List.sum_cons, ih]
    ring

theorem sum_ite_single (ks : List (Nat × Nat)) (a : Nat × Nat) (v : Int)
    (hnd : ks.Nodup) (ha : a ∈ ks) :
    (ks.map fun k => if a = k then v else 0).sum = v := by
  induction ks with
  | nil => cases ha
  | cons k ks ih =>
    rw [List.map_cons, List.sum_cons]
    rcases List.mem_cons.mp ha with h | h
    · subst h
      rw [if_pos rfl]
      have hnotin : a ∉ ks := (List.nodup_cons.mp hnd).1
      have hzero : (ks.map fun j => if a = j then v else 0).sum = 0 := by
        apply List.sum_eq_zero
        intro x hx
        obtain ⟨k2, hk2, hfx⟩ := List.mem_map.mp hx
        rw [← hfx, if_neg]
        intro he
        exact hnotin (he ▸ hk2)
      rw [hzero, add_zero]
    · have hne : a ≠ k := by
        intro he
        exact (List.nodup_cons.mp hnd).1 (he ▸ h)
      rw [if_neg hne, ih (List.nodup_cons.mp hnd).2 h, zero_add]

theorem monthSum_cons (p : Date × Int) (rest : List (Date × Int))
    (k : Nat × Nat) :
    monthSum (p :: rest) k
      = (if monthKey p.1 = k then p.2 else 0) + monthSum rest k := by
  unfold monthSum
  rw [List.filter_cons]
  by_cases h : monthKey p.1 = k
  · simp [h]
  · simp [h]

theorem monthSum_partition (ks : List (Nat × Nat)) (s : List (Date × Int))
    (hnd : ks.Nodup) (hc : ∀ p ∈ s, monthKey p.1 ∈ ks) :
    (ks.map fun k => monthSum s k).sum = (s.map Prod.snd).sum := by
  induction s with
  | nil =>
    simp only [List.map_nil, List.sum_nil]
    apply List.sum_eq_zero
    intro x hx
    obtain ⟨k2, _, hfx⟩ := List.mem_map.mp hx
    rw [← hfx]
    rfl
  | cons p rest ih =>
    have hrec := ih fun q hq => hc q (List.mem_cons_of_mem p hq)
    calc (ks.map fun k => monthSum (p :: rest) k).sum
        = (ks.map fun k =>
            (if monthKey p.1 = k then p.2 else 0) + monthSum rest k).sum := by
          simp only [monthSum_cons]
      _ = (ks.map fun k => if monthKey p.1 = k then p.2 else 0).sum
            + (ks.map fun k => monthSum rest k).sum := sum_map_add_pair _ _ ks
      _ = p.2 + (rest.map Prod.snd).sum := by
          rw [sum_ite_single ks _ _ hnd (hc p (List.mem_cons_self p rest)), hrec]
      _ = ((p :: rest).map Prod.snd).sum := by simp

/-- C9: the month-wise aggregation conserves the total: the sum of the
per-month totals equals the sum of the series, which is the Total PNL
field whenever the metrics record is defined. -/
theorem monthwise_total (series : List (Date × Int)) :
    ((monthwise series).map Prod.snd).sum = (series.map Prod.snd).sum ∧
    ∀ m, metrics? (series.map Prod.snd) = some m →
      ((monthwise series).map Prod.snd).sum = m.totalPNL := by
  have hproj : (monthwise series).map Prod.snd
      = (List.insertionSort mLe (firstOcc (monthVals series))).map
          fun k => monthSum series k := by
    unfold monthwise
    rw [List.map_map]
    rfl
  have hsum : ((monthwise series).map Prod.snd).sum
      = (series.map Prod.snd).sum := by
    rw [hproj]
    apply monthSum_partition
    · exact ((List.perm_insertionSort mLe _).nodup_iff).mpr (firstOcc_nodup _)
    · intro p hp
      rw [List.mem_insertionSort, mem_firstOcc]
      exact List.mem_map_of_mem _ hp
  refine ⟨hsum, ?_⟩
  intro m hm
  obtain ⟨d0, drest, hdd, hmeq⟩ := metrics?_inv hm
  subst hmeq
  rw [hsum]
  rfl

/-- Witness for C9 at the two-month series [(2024-03-01, 5), (2024-04-02, 7)]. -/
theorem monthwise_total_witness :
    ((monthwise [((⟨2024, 3, 1⟩ : Date), (5 : Int)), (⟨2024, 4, 2⟩, 7)]).map
        Prod.snd).sum
      = (([((⟨2024, 3, 1⟩ : Date), (5 : Int)), (⟨2024, 4, 2⟩, 7)]).map
          Prod.snd).sum ∧
    ((monthwise [((⟨2024, 3, 1⟩ : Date), (5 : Int)), (⟨2024, 4, 2⟩, 7)]).map
        Prod.snd).sum
      = (metricsNE
          (([((⟨2024, 3, 1⟩ : Date), (5 : Int)), (⟨2024, 4, 2⟩, 7)]).map
            Prod.snd) 0 [0]).totalPNL :=
  ⟨(monthwise_total _).1, (monthwise_total _).2 _ rfl⟩

end AngelDash
